import Mathlib

/-!
Shallow embedding of the pyrsonalizer core (actions.py, utils.py, errors.py,
graph_parser.py, execution_graph.py, execution_context.py) and proofs about it.

Conventions of the embedding:
* Python exceptions are modelled by the inductive `PyExc`; fallible code returns
  `Except PyExc _`.
* Python dynamic typing at the `utils.log_and_raise` call sites matters, because
  several call sites pass the exception class and the message string in swapped
  positions; the dynamically typed arguments are modelled by `PyVal`, and
  `log_and_raise` reproduces what CPython does with each combination
  (string concatenation of an error key with a class raises TypeError, and
  `raise x` where x is a string raises TypeError).
* Timestamps (datetime values) are modelled as integers, file contents as
  strings, the file system as an association list from paths to files.
* The interactive prompt of `FileLocation.compare_modified_date` is an external
  collaborator; it is modelled as an input (the decision the user would pick).
* Commands run by `Installation` are modelled by oracles `Nat → Int` giving the
  return code of the n-th invocation of the check / install command.
-/

namespace Pyrsonalizer

/-! ## Python runtime model -/

/-- Exceptions that the embedded code can raise.  The constructors mirror the
exception classes appearing in the source plus the CPython runtime errors
(TypeError, AttributeError) that ill-typed operations raise. -/
inductive PyExc where
  | typeError (msg : String)
  | attributeError (name : String)
  | keyError (key : String)
  | valueError
  | environmentError
  | circularDependencyException
  | impossibleStateException
  | actionFailureException
  | userStoppedExecutionException
  | notImplementedError
deriving DecidableEq, Repr

/-- A dynamically typed Python value as passed to `utils.log_and_raise`:
either a string or an exception class. -/
inductive PyVal where
  | str (s : String)
  | excClass (e : PyExc)
deriving DecidableEq, Repr

/-- utils.log_and_raise(logger_func, error_message, exception, error_key).
The logger argument is irrelevant to the result and omitted.  Faithful to the
dynamic behaviour of the Python body:

    if error_key is not None:
        error_message = error_key + ": " + error_message   -- TypeError if error_message is a class
    logger_func(error_message)
    raise exception                                        -- TypeError if exception is a string

Several call sites in graph_parser.py and execution_graph.py pass
(exception_class, message) instead of (message, exception_class); with an error
key present the concatenation then raises TypeError before anything else. -/
def log_and_raise (error_message : PyVal) (exception : PyVal) (error_key : Option String) : PyExc :=
  match error_key, error_message with
  | some _, PyVal.excClass _ =>
      PyExc.typeError "can only concatenate str (not type) to str"
  | _, _ =>
      match exception with
      | PyVal.excClass e => e
      | PyVal.str _ => PyExc.typeError "exceptions must derive from BaseException"

/-- The module-level string constants actually defined in errors.py, as
(attribute name, value) pairs.  Note that AC_FAILED_TO_INSTALL and
AC_CHECK_ONLY_INSTALLATION_NOT_INSTALLED are referenced from actions.py but are
not defined in errors.py. -/
def errorsModule : List (String × String) :=
  [ ("NP_MISSING_LOCATION_TYPE", "missing_location_type")
  , ("NP_MISSING_FILE_SYNC_CONFIG", "missing_file_sync_config")
  , ("NP_INVALID_LOCATION_TYPE", "np_invalid_location_type")
  , ("NP_MISSING_EXEC_CONTEXT", "np_missing_exec_context")
  , ("GP_PATH_DOES_NOT_EXIST", "gp_path_does_not_exist")
  , ("GP_NO_CLASS_MAP", "gp_no_class_map")
  , ("GP_NO_PARSER_FUNC_MAP", "gp_no_parser_func_map")
  , ("GP_BAD_DEPENDENCY_REF", "gp_bad_dependency_ref")
  , ("EG_CIRCULAR_DEPENDENCY", "eg_circular_dependency")
  , ("EG_IMPOSSIBLE_STATE", "eg_impossible_state")
  , ("AC_BAD_GITHUB_URL", "ac_bad_github_url")
  , ("AC_BAD_FINAL_FILE_PATH", "ac_bad_final_file_path")
  , ("AC_FAILED_TO_CLONE", "ac_failed_to_clone")
  , ("AC_USER_STOPPED_EXECUTION", "ac_user_stopped_execution")
  , ("UT_GET_MODIFIED_DATE_PATH_DOES_NOT_EXIST", "ut_get_modified_date_path_does_not_exist") ]

/-- Attribute lookup `errors.<name>`: AttributeError when the module does not
define the name. -/
def errorsGetattr (name : String) : Except PyExc String :=
  match errorsModule.lookup name with
  | some v => Except.ok v
  | none => Except.error (PyExc.attributeError name)

/-! ## Execution context, file system -/

/-- execution_context.ExecutionContext.  The dataclass declares only
`pyrsonalizer_directory`; `skip_modified_date_warning` is an attribute that
FileSync._handle_modified_date sets dynamically, so it is modelled as an
`Option Bool` that is `none` until assigned. -/
structure ExecutionContext where
  pyrsonalizer_directory : Option String := none
  skip_modified_date_warning : Option Bool := none
deriving DecidableEq, Repr

/-- A file on disk: its content and its last-modified timestamp. -/
structure FileRec where
  content : String
  mtime : Int
deriving DecidableEq, Repr

/-- The file system: an association list from paths to files. -/
abbrev FileSystem := List (String × FileRec)

/-- Look a path up in the file system. -/
def fsGet (fs : FileSystem) (path : String) : Option FileRec :=
  fs.lookup path

/-- Overwrite (or create) the file at `path`. -/
def fsPut (fs : FileSystem) (path : String) (f : FileRec) : FileSystem :=
  (path, f) :: fs.filter (fun kv => kv.fst ≠ path)

/-- utils.get_file_modified_date: raises (via a correctly-ordered
log_and_raise call) ValueError when the path does not exist, else returns the
file's modified date. -/
def get_file_modified_date (fs : FileSystem) (path : String) : Except PyExc Int :=
  match fsGet fs path with
  | none => Except.error (log_and_raise
      (PyVal.str ("Path " ++ path ++ " does not exist."))
      (PyVal.excClass PyExc.valueError)
      (some "ut_get_modified_date_path_does_not_exist"))
  | some f => Except.ok f.mtime

/-! ## FileLocation and FileSync (actions.py) -/

/-- actions.ModifiedDateDecisionEnum. -/
inductive ModifiedDateDecisionEnum where
  | stop_execution
  | skip_this_action
  | proceed_once
  | ignore_in_future
deriving DecidableEq, Repr

/-- actions.LocalFileLocation (the backend exercised by the file-sync claims). -/
structure LocalFileLocation where
  path : String
deriving DecidableEq, Repr

/-- LocalFileLocation.get_file_path: EnvironmentError if the path does not
exist, else the path itself. -/
def LocalFileLocation.get_file_path (fs : FileSystem) (l : LocalFileLocation) :
    Except PyExc String :=
  if (fsGet fs l.path).isSome then Except.ok l.path
  else Except.error PyExc.environmentError

/-- LocalFileLocation.get_modified_date delegates to
utils.get_file_modified_date. -/
def LocalFileLocation.get_modified_date (fs : FileSystem) (l : LocalFileLocation) :
    Except PyExc Int :=
  get_file_modified_date fs l.path

/-- FileLocation.compare_modified_date.  The Python body:

    if self.get_modified_date() < utils.get_file_modified_date(file_path):
        ... prompt the user ...
        return ModifiedDateDecisionEnum(int(choice))
    return None

`prompt` is the decision the interactive collaborator returns when consulted
(the prompt_toolkit validator restricts the reply to the four enum values). -/
def compare_modified_date (fs : FileSystem) (src : LocalFileLocation)
    (file_path : String) (prompt : ModifiedDateDecisionEnum) :
    Except PyExc (Option ModifiedDateDecisionEnum) := do
  let sourceDate ← src.get_modified_date fs
  let localDate ← get_file_modified_date fs file_path
  if sourceDate < localDate then
    return (some prompt)
  else
    return none

/-- actions.FileSync (local backend). -/
structure FileSync where
  key : String
  file_source : LocalFileLocation
  dest_path : String
  overwrite : Bool
deriving DecidableEq, Repr

/-- FileSync._handle_modified_date.  Returns (should_finish, updated context);
raises (correctly-ordered log_and_raise) UserStoppedExecutionException on the
stop decision.  Note the body consults `compare_modified_date` unconditionally:
`exec_context.skip_modified_date_warning` is assigned in the ignore_in_future
branch but is never read anywhere in the source. -/
def FileSync.handle_modified_date (a : FileSync) (fs : FileSystem)
    (prompt : ModifiedDateDecisionEnum) (ctx : ExecutionContext) :
    Except PyExc (Bool × ExecutionContext) := do
  let choice ← compare_modified_date fs a.file_source a.dest_path prompt
  match choice with
  | some ModifiedDateDecisionEnum.stop_execution =>
      Except.error (log_and_raise
        (PyVal.str ("User stopped execution at action with key " ++ a.key))
        (PyVal.excClass PyExc.userStoppedExecutionException)
        (some "ac_user_stopped_execution"))
  | some ModifiedDateDecisionEnum.skip_this_action =>
      return (false, ctx)
  | some ModifiedDateDecisionEnum.proceed_once =>
      return (true, ctx)
  | some ModifiedDateDecisionEnum.ignore_in_future =>
      return (true, { ctx with skip_modified_date_warning := some true })
  | none =>
      return (true, ctx)

/-- FileSync.execute.  `now` is the wall-clock timestamp the copied file
receives as its modified date.  Mirrors the Python control flow:

    source_path = self.file_source.get_file_path()
    if dest_path resolves to a file:
        if not overwrite: log_and_raise(..., ActionFailureException)   -- args in correct order here
        elif not self._handle_modified_date(ctx): return               -- skip: no copy
    shutil.copy(source_path, dest_path)
-/
def FileSync.execute (a : FileSync) (fs : FileSystem) (prompt : ModifiedDateDecisionEnum)
    (now : Int) (ctx : ExecutionContext) : Except PyExc (FileSystem × ExecutionContext) := do
  let source_path ← a.file_source.get_file_path fs
  match fsGet fs a.dest_path with
  | some _ =>
      if ¬ a.overwrite then
        Except.error (log_and_raise
          (PyVal.str ("File exists at " ++ a.dest_path ++ " and overwrite is not set to true."))
          (PyVal.excClass PyExc.actionFailureException)
          none)
      else do
        let (finish, ctx2) ← a.handle_modified_date fs prompt ctx
        if finish then
          match fsGet fs source_path with
          | some srcFile => return (fsPut fs a.dest_path ⟨srcFile.content, now⟩, ctx2)
          | none => Except.error PyExc.environmentError
        else
          return (fs, ctx2)
  | none =>
      match fsGet fs source_path with
      | some srcFile => return (fsPut fs a.dest_path ⟨srcFile.content, now⟩, ctx)
      | none => Except.error PyExc.environmentError

/-! ## Installation (actions.py) -/

/-- actions.Installation. -/
structure Installation where
  key : String
  check_command : String
  install_command : Option String
deriving DecidableEq, Repr

/-- Installation.execute.  `checkRet n` / `installRet n` are the return codes
of the n-th run of the check / install command.  Returns the outcome together
with the number of times the install command was actually spawned.  Mirrors:

    if self._is_installed(): return
    if not self._install(): log_and_raise(..., ActionFailureException, errors.AC_FAILED_TO_INSTALL)
    if not self._is_installed():
        if self.install_command is not None: logger.warning(...); return
        log_and_raise(..., ActionFailureException, errors.AC_CHECK_ONLY_INSTALLATION_NOT_INSTALLED)

The two errors.* attributes referenced in the failure branches are not defined
in errors.py, so evaluating them (as arguments of log_and_raise) raises
AttributeError before log_and_raise is entered; `errorsGetattr` models the
lookup. -/
def Installation.execute (a : Installation) (checkRet : Nat → Int) (installRet : Nat → Int) :
    Except PyExc Unit × Nat :=
  if checkRet 0 = 0 then
    (Except.ok (), 0)
  else
    let installRuns : Nat := if a.install_command.isSome then 1 else 0
    let installOk : Bool := if a.install_command.isSome then installRet 0 = 0 else true
    if ¬ installOk then
      match errorsGetattr "AC_FAILED_TO_INSTALL" with
      | Except.error e => (Except.error e, installRuns)
      | Except.ok k =>
          (Except.error (log_and_raise
            (PyVal.str ("Failed to install Installation with key " ++ a.key))
            (PyVal.excClass PyExc.actionFailureException)
            (some k)), installRuns)
    else if ¬ (checkRet 1 = 0) then
      if a.install_command.isSome then
        (Except.ok (), installRuns)
      else
        match errorsGetattr "AC_CHECK_ONLY_INSTALLATION_NOT_INSTALLED" with
        | Except.error e => (Except.error e, installRuns)
        | Except.ok k =>
            (Except.error (log_and_raise
              (PyVal.str ("Check-only installation with key " ++ a.key ++ " is not installed."))
              (PyVal.excClass PyExc.actionFailureException)
              (some k)), installRuns)
    else
      (Except.ok (), installRuns)

/-! ## Graph construction (graph_parser.py)

Parsed actions are handled at the level the scheduler sees them: a key and a
list of dependency keys (`PAct`).  Actions are identified by their position in
the parsed list; the synthetic root gets node id `n` where `n` is the number of
actions.  `key_object_mapping` is a Python dict built by iterating the list,
so a duplicated key maps to the action parsed last (`keyIndex`). -/

/-- One parsed action as the scheduler sees it: its key and dependency keys. -/
structure PAct where
  key : String
  deps : List String
deriving DecidableEq, Repr

/-- Index of the last action in `acts` (from position `i` on) carrying key `k`:
the binding a Python dict holds after inserting every action in order. -/
def keyIndexAux : List PAct → String → Nat → Option Nat
  | [], _, _ => none
  | a :: rest, k, i =>
      match keyIndexAux rest k (i + 1) with
      | some j => some j
      | none => if a.key = k then some i else none

/-- Resolution of a dependency key through key_object_mapping. -/
def keyIndex (acts : List PAct) (k : String) : Option Nat :=
  keyIndexAux acts k 0

/-- graph_parser._build_dependency_graph, for one action: resolve each
dependency key in order; the first unknown key raises KeyError inside the list
comprehension, which the except-block turns into a log_and_raise call with the
exception class and the message swapped (so a TypeError is what escapes). -/
def resolveKeys (acts : List PAct) : List String → Except PyExc (List Nat)
  | [] => Except.ok []
  | k :: rest =>
      match keyIndex acts k with
      | none => Except.error (log_and_raise
          (PyVal.excClass (PyExc.keyError k))
          (PyVal.str ("Dependency key " ++ k ++ " does not refer to an object that exists."))
          (some "gp_bad_dependency_ref"))
      | some i => (resolveKeys acts rest).map (fun is => i :: is)

/-- The dependency table of the built graph: entry `i` lists the node indices
action `i` depends on (its future children in the GraphNode structure), in
dependency_keys order. -/
def buildTables (acts : List PAct) : List PAct → Except PyExc (List (List Nat))
  | [] => Except.ok []
  | a :: rest => do
      let ds ← resolveKeys acts a.deps
      let tl ← buildTables acts rest
      return ds :: tl

/-- An execution graph: the dependency table.  Node ids 0..(length-1) are the
actions, id `length` is the synthetic root wrapping a NullAction. -/
abbrev EGraph := List (List Nat)

/-- graph_parser.parse_execution_graph restricted to the scheduler-relevant
content: _build_dependency_graph over the parsed actions (the first resolution
failure aborts the build). -/
def buildGraph (acts : List PAct) : Except PyExc EGraph :=
  buildTables acts acts

/-- The id of the synthetic root node. -/
def rootId (g : EGraph) : Nat := g.length

/-- graph_parser._build_root: the root's children are the actions that are not
the target of any resolved dependency.  (Python iterates a set here, so the
sibling order is unspecified; index order is this embedding's choice.) -/
def topNodes (g : EGraph) : List Nat :=
  (List.range g.length).filter (fun i => ¬ g.any (fun ds => i ∈ ds))

/-- The children (GraphNode._child_nodes) of node `v`: its resolved
dependencies for an action, the top-level actions for the root, and nothing for
ids outside the graph. -/
def children (g : EGraph) (v : Nat) : List Nat :=
  if v = g.length then topNodes g else g.getD v []

/-- The dependency edge relation: `edge g u v` holds when node `v` is a child
of node `u`, i.e. `u` depends on `v` (or `u` is the root and `v` top-level). -/
def edge (g : EGraph) (u v : Nat) : Prop := v ∈ children g u

instance (g : EGraph) (u v : Nat) : Decidable (edge g u v) := by
  unfold edge; infer_instance

/-- The parents (GraphNode._parent_nodes) of node `v`, as the derived list of
all nodes having `v` among their children.  GraphNode.add_child maintains the
parent lists as exactly the reverse edges, and the scheduler only ever asks
whether some member is unvisited, which depends only on the membership this
derived list shares with the Python list. -/
def parentsList (g : EGraph) (v : Nat) : List Nat :=
  (List.range (g.length + 1)).filter (fun u => decide (v ∈ children g u))

/-! ## The scheduler (execution_graph.py)

Both traversals use a worklist kept in reversed order relative to the Python
list (`list.pop()` pops the last element; the head of the Lean list is the
element a pop returns, and `list.append`/`list.extend` translate to consing,
so a block of appended children is consed in reverse).  Python tracks
visitedness per fresh uuid key on the nodes themselves; each embedded traversal
simply starts from an empty visited list, which is equivalent because the key
is fresh.  The loops carry fuel because the Python loops need not terminate on
arbitrary graphs; `none` models divergence and is proved impossible for the
inputs the claims quantify over. -/

/-- ExecutionGraph._get_num_nodes: depth-first reachability count from the
root.  Returns (visited list, count). -/
def countLoop (g : EGraph) : Nat → List Nat → List Nat → Nat → Option (List Nat × Nat)
  | _, [], visited, count => some (visited, count)
  | 0, _ :: _, _, _ => none
  | fuel + 1, node :: rest, visited, count =>
      if node ∈ visited then
        countLoop g fuel rest visited count
      else
        countLoop g fuel ((children g node).reverse ++ rest) (node :: visited) (count + 1)

/-- ExecutionGraph._get_num_nodes. -/
def get_num_nodes (g : EGraph) (fuel : Nat) : Option Nat :=
  (countLoop g fuel [rootId g] [] 0).map (fun r => r.2)

/-- The while-loop of ExecutionGraph.get_topological_sort: pop a node, mark it
visited, append it to the result, and push every child all of whose parents are
visited.  Returns (visited list, sorted list). -/
def sortLoop (g : EGraph) : Nat → List Nat → List Nat → List Nat → Option (List Nat × List Nat)
  | _, [], visited, sorted => some (visited, sorted)
  | 0, _ :: _, _, _ => none
  | fuel + 1, node :: rest, visited, sorted =>
      let visited2 := node :: visited
      let sorted2 := sorted ++ [node]
      let pushes := (children g node).filter
        (fun c => (parentsList g c).all (fun p => decide (p ∈ visited2)))
      sortLoop g fuel (pushes.reverse ++ rest) visited2 sorted2

/-- ExecutionGraph.get_topological_sort: run the loop, then compare the length
of the produced order with the reachable-node count.  Both error branches call
log_and_raise with the exception class and the message swapped, so the
exception that actually escapes is a TypeError in both cases. -/
def get_topological_sort (g : EGraph) (fuel : Nat) : Option (Except PyExc (List Nat)) :=
  match get_num_nodes g fuel, sortLoop g fuel [rootId g] [] [] with
  | some known, some (_, sorted) =>
      some (
        if sorted.length < known then
          Except.error (log_and_raise
            (PyVal.excClass PyExc.circularDependencyException)
            (PyVal.str "Found circular dependency in dependency graph.")
            (some "eg_circular_dependency"))
        else if sorted.length > known then
          Except.error (log_and_raise
            (PyVal.excClass PyExc.impossibleStateException)
            (PyVal.str "Hit an impossible state, you have found a bug!")
            (some "eg_impossible_state"))
        else
          Except.ok sorted)
  | _, _ => none

/-! ## The execute phase (ExecutionGraph.execute) -/

/-- The value an execution-graph node wraps. -/
inductive ActVal where
  | nullAction
  | fileSyncVal (a : FileSync)
  | installVal (a : Installation)
deriving Repr

/-- The call `node.value.execute()` exactly as ExecutionGraph.execute performs
it: with no argument.  NullAction.execute and FileSync.execute require the
positional parameter exec_context, so the call itself raises TypeError;
Installation.execute declares a default (None) and runs. -/
def callExecuteNoArgs (v : ActVal) (checkRet installRet : Nat → Int) : Except PyExc Unit :=
  match v with
  | ActVal.nullAction =>
      Except.error (PyExc.typeError
        "execute() missing 1 required positional argument: exec_context")
  | ActVal.fileSyncVal _ =>
      Except.error (PyExc.typeError
        "execute() missing 1 required positional argument: exec_context")
  | ActVal.installVal a => (a.execute checkRet installRet).1

/-- The fail-fast iteration of ExecutionGraph.execute over the reversed order:
the first exception of any kind aborts the remaining sequence (the except
ActionFailureException handler merely re-raises, and anything else propagates
uncaught). -/
def runActions (vals : Nat → ActVal) (checkRet installRet : Nat → Int) :
    List Nat → Except PyExc Unit
  | [] => Except.ok ()
  | v :: rest => do
      let _ ← callExecuteNoArgs (vals v) checkRet installRet
      runActions vals checkRet installRet rest

/-- ExecutionGraph.execute: take the topological sort, reverse it and execute
each node's value in that order.  Note the method has no exec_context
parameter, and `node.value.execute()` is invoked without arguments. -/
def graphExecute (g : EGraph) (vals : Nat → ActVal) (checkRet installRet : Nat → Int)
    (fuel : Nat) : Option (Except PyExc Unit) :=
  match get_topological_sort g fuel with
  | none => none
  | some (Except.error e) => some (Except.error e)
  | some (Except.ok sorted) => some (runActions vals checkRet installRet sorted.reverse)

/-- The acyclicity of the dependency graph: no node reaches itself through a
nonempty chain of dependency edges. -/
def Acyclic (g : EGraph) : Prop := ∀ v, ¬ Relation.TransGen (edge g) v v

/-- The edge relation transported to the finite node type. -/
def edgeFin (g : EGraph) (a b : Fin (g.length + 1)) : Prop := edge g a.val b.val

/-- The invariant of `sortLoop`, phrased over the worklist and the produced
prefix of the order.  `hpar` says that any node that ever entered the worklist
had all its parents already in the order; `hclosed` says that any node whose
parents are all in the order has itself been scheduled; `hord` is the
parents-before-children property of the produced prefix. -/
structure SortInv (g : EGraph) (active sorted : List Nat) : Prop where
  hnd : (sorted ++ active).Nodup
  hrange : ∀ v ∈ sorted ++ active, v < g.length + 1
  hpar : ∀ c ∈ sorted ++ active, ∀ u, edge g u c → u ∈ sorted
  hclosed : ∀ c, c < g.length + 1 → parentsList g c ≠ [] →
      (∀ p ∈ parentsList g c, p ∈ sorted) → c ∈ sorted ∨ c ∈ active
  hord : sorted.Pairwise (fun a b => ¬ edge g b a)
  hroot : g.length ∈ sorted ∨ g.length ∈ active

/-- The invariant of `countLoop`: visited nodes are in range and counted once,
and the children of every visited node are visited or still on the stack. -/
structure CountInv (g : EGraph) (search visited : List Nat) (count : Nat) : Prop where
  hsr : ∀ v ∈ search, v < g.length + 1
  hvr : ∀ v ∈ visited, v < g.length + 1
  hvnd : visited.Nodup
  hcnt : count = visited.length
  hclos : ∀ v ∈ visited, ∀ c ∈ children g v, c ∈ visited ∨ c ∈ search
  hroot : g.length ∈ visited ∨ g.length ∈ search

/-- The termination potential of the counting loop: everything not yet visited
contributes itself plus its children. -/
def wsum (g : EGraph) (visited : List Nat) : Nat :=
  ((Finset.range (g.length + 1)).filter (fun v => v ∉ visited)).sum
    (fun v => 1 + (children g v).length)

/-- A fuel value sufficient for both traversals of
`ExecutionGraph.get_topological_sort`. -/
def egFuel (g : EGraph) : Nat :=
  2 + (Finset.range (g.length + 1)).sum (fun v => 1 + (children g v).length)

deriving instance DecidableEq for Except


/-! ## Lemmas about graph construction -/

theorem forall2_mem_right {α β : Type} {R : α → β → Prop} {l1 : List α} {l2 : List β}
    (h : List.Forall₂ R l1 l2) {b : β} (hb : b ∈ l2) : ∃ a ∈ l1, R a b := by
  induction h with
  | nil => cases hb
  | cons hr _ ih =>
      rcases List.mem_cons.mp hb with hb1 | hb2
      · exact ⟨_, List.mem_cons_self _ _, hb1 ▸ hr⟩
      · obtain ⟨a, ha, hra⟩ := ih hb2
        exact ⟨a, List.mem_cons_of_mem _ ha, hra⟩

theorem keyIndexAux_bounds {acts : List PAct} {k : String} {i j : Nat}
    (h : keyIndexAux acts k i = some j) : i ≤ j ∧ j < i + acts.length := by
  induction acts generalizing i with
  | nil => simp [keyIndexAux] at h
  | cons a rest ih =>
      unfold keyIndexAux at h
      cases hrec : keyIndexAux rest k (i + 1) with
      | some j2 =>
          rw [hrec] at h
          cases h
          have := ih hrec
          constructor
          · omega
          · simp only [List.length_cons]; omega
      | none =>
          rw [hrec] at h
          by_cases hk : a.key = k
          · simp [hk] at h
            cases h
            simp only [List.length_cons]
            omega
          · simp [hk] at h

theorem keyIndexAux_key {acts : List PAct} {k : String} {i j : Nat}
    (h : keyIndexAux acts k i = some j) :
    ∃ a, acts.get? (j - i) = some a ∧ a.key = k := by
  induction acts generalizing i with
  | nil => simp [keyIndexAux] at h
  | cons a rest ih =>
      unfold keyIndexAux at h
      cases hrec : keyIndexAux rest k (i + 1) with
      | some j2 =>
          rw [hrec] at h
          cases h
          obtain ⟨b, hb, hbk⟩ := ih hrec
          have hle := (keyIndexAux_bounds hrec).1
          refine ⟨b, ?_, hbk⟩
          have hji : j - i = (j - (i + 1)) + 1 := by omega
          rw [hji]
          simpa using hb
      | none =>
          rw [hrec] at h
          by_cases hk : a.key = k
          · simp [hk] at h
            cases h
            exact ⟨a, by simp, hk⟩
          · simp [hk] at h

theorem keyIndex_lt {acts : List PAct} {k : String} {j : Nat}
    (h : keyIndex acts k = some j) : j < acts.length := by
  have := keyIndexAux_bounds h
  omega

theorem keyIndex_key {acts : List PAct} {k : String} {j : Nat}
    (h : keyIndex acts k = some j) : ∃ a, acts.get? j = some a ∧ a.key = k := by
  have := keyIndexAux_key h
  simpa using this

/-- Two distinct keys never resolve to the same action index. -/
theorem keyIndex_inj {acts : List PAct} {k1 k2 : String} {j : Nat}
    (h1 : keyIndex acts k1 = some j) (h2 : keyIndex acts k2 = some j) : k1 = k2 := by
  obtain ⟨a1, ha1, hk1⟩ := keyIndex_key h1
  obtain ⟨a2, ha2, hk2⟩ := keyIndex_key h2
  rw [ha1] at ha2
  cases ha2
  rw [← hk1, ← hk2]

theorem resolveKeys_ok {acts : List PAct} {ks : List String} {is : List Nat}
    (h : resolveKeys acts ks = Except.ok is) :
    List.Forall₂ (fun k i => keyIndex acts k = some i) ks is := by
  induction ks generalizing is with
  | nil =>
      simp only [resolveKeys] at h
      cases h
      exact List.Forall₂.nil
  | cons k rest ih =>
      simp only [resolveKeys] at h
      cases hk : keyIndex acts k with
      | none => rw [hk] at h; cases h
      | some i =>
          rw [hk] at h
          cases hrest : resolveKeys acts rest with
          | error e => rw [hrest] at h; cases h
          | ok tl =>
              rw [hrest] at h
              simp only [Except.map] at h
              cases h
              exact List.Forall₂.cons hk (ih hrest)

theorem resolveKeys_lt {acts : List PAct} {ks : List String} {is : List Nat}
    (h : resolveKeys acts ks = Except.ok is) : ∀ i ∈ is, i < acts.length := by
  intro i hi
  obtain ⟨k, _, hk⟩ := forall2_mem_right (resolveKeys_ok h) hi
  exact keyIndex_lt hk

theorem resolveKeys_nodup {acts : List PAct} {ks : List String} {is : List Nat}
    (h : resolveKeys acts ks = Except.ok is) (hnd : ks.Nodup) : is.Nodup := by
  induction ks generalizing is with
  | nil =>
      simp only [resolveKeys] at h
      cases h
      exact List.nodup_nil
  | cons k rest ih =>
      simp only [resolveKeys] at h
      cases hk : keyIndex acts k with
      | none => rw [hk] at h; cases h
      | some i =>
          rw [hk] at h
          cases hrest : resolveKeys acts rest with
          | error e => rw [hrest] at h; cases h
          | ok tl =>
              rw [hrest] at h
              simp only [Except.map] at h
              cases h
              rw [List.nodup_cons] at hnd ⊢
              refine ⟨?_, ih hrest hnd.2⟩
              intro hmem
              obtain ⟨k2, hk2mem, hk2⟩ := forall2_mem_right (resolveKeys_ok hrest) hmem
              exact hnd.1 (keyIndex_inj hk2 hk ▸ hk2mem)

theorem buildTables_ok {acts rest : List PAct} {tbl : List (List Nat)}
    (h : buildTables acts rest = Except.ok tbl) :
    List.Forall₂ (fun (a : PAct) ds => resolveKeys acts a.deps = Except.ok ds) rest tbl := by
  induction rest generalizing tbl with
  | nil =>
      simp only [buildTables] at h
      cases h
      exact List.Forall₂.nil
  | cons a as ih =>
      simp only [buildTables, bind, Except.bind] at h
      cases hres : resolveKeys acts a.deps with
      | error e => rw [hres] at h; cases h
      | ok ds =>
          rw [hres] at h
          cases htl : buildTables acts as with
          | error e => rw [htl] at h; cases h
          | ok tl =>
              rw [htl] at h
              simp only [pure, Except.pure] at h
              cases h
              exact List.Forall₂.cons hres (ih htl)

theorem buildGraph_length {acts : List PAct} {g : EGraph}
    (h : buildGraph acts = Except.ok g) : g.length = acts.length :=
  ((buildTables_ok h).length_eq).symm

/-- Every index stored in a built dependency table is a valid action index. -/
theorem buildGraph_wf {acts : List PAct} {g : EGraph}
    (h : buildGraph acts = Except.ok g) : ∀ ds ∈ g, ∀ i ∈ ds, i < g.length := by
  intro ds hds i hi
  obtain ⟨a, _, hres⟩ := forall2_mem_right (buildTables_ok h) hds
  rw [buildGraph_length h]
  exact resolveKeys_lt hres i hi

/-- When every action lists pairwise distinct dependency keys, every built
table entry is duplicate-free. -/
theorem buildGraph_nodup {acts : List PAct} {g : EGraph}
    (h : buildGraph acts = Except.ok g) (hnd : ∀ a ∈ acts, a.deps.Nodup) :
    ∀ ds ∈ g, ds.Nodup := by
  intro ds hds
  obtain ⟨a, ha, hres⟩ := forall2_mem_right (buildTables_ok h) hds
  exact resolveKeys_nodup hres (hnd a ha)

/-! ## Lemmas about the graph structure -/

theorem mem_topNodes {g : EGraph} {v : Nat} :
    v ∈ topNodes g ↔ v < g.length ∧ ∀ ds ∈ g, v ∉ ds := by
  simp [topNodes, List.mem_filter, List.mem_range, decide_eq_true_eq]

theorem children_sub {g : EGraph} (hwf : ∀ ds ∈ g, ∀ i ∈ ds, i < g.length)
    {u v : Nat} (h : v ∈ children g u) : v < g.length := by
  unfold children at h
  by_cases hu : u = g.length
  · rw [if_pos hu] at h
    exact (mem_topNodes.mp h).1
  · rw [if_neg hu] at h
    rcases Nat.lt_or_ge u g.length with hlt | hge
    · rw [List.getD_eq_getElem g [] hlt] at h
      exact hwf _ (List.getElem_mem hlt) v h
    · rw [List.getD_eq_default g [] hge] at h
      cases h

theorem edge_src_lt {g : EGraph} {u v : Nat} (h : edge g u v) : u < g.length + 1 := by
  unfold edge children at h
  by_cases hu : u = g.length
  · omega
  · rw [if_neg hu] at h
    rcases Nat.lt_or_ge u g.length with hlt | hge
    · omega
    · rw [List.getD_eq_default g [] hge] at h
      cases h

theorem edge_tgt_lt {g : EGraph} (hwf : ∀ ds ∈ g, ∀ i ∈ ds, i < g.length)
    {u v : Nat} (h : edge g u v) : v < g.length :=
  children_sub hwf h

/-- No node has the root among its children. -/
theorem not_edge_root {g : EGraph} (hwf : ∀ ds ∈ g, ∀ i ∈ ds, i < g.length)
    {u : Nat} : ¬ edge g u (g.length) := by
  intro h
  exact absurd (children_sub hwf h) (by omega)

theorem mem_parentsList {g : EGraph} {u v : Nat} :
    u ∈ parentsList g v ↔ u < g.length + 1 ∧ edge g u v := by
  simp [parentsList, List.mem_filter, List.mem_range, decide_eq_true_eq, edge]

/-- Every action node has at least one parent: the actions that resolved a
dependency to it, or the synthetic root if no action did. -/
theorem parentsList_ne_nil {g : EGraph} {v : Nat} (hv : v < g.length) :
    parentsList g v ≠ [] := by
  by_cases hdep : ∀ ds ∈ g, v ∉ ds
  · have hroot : edge g (g.length) v := by
      unfold edge children
      rw [if_pos rfl]
      exact mem_topNodes.mpr ⟨hv, hdep⟩
    intro hnil
    have : g.length ∈ parentsList g v := mem_parentsList.mpr ⟨by omega, hroot⟩
    rw [hnil] at this
    cases this
  · push_neg at hdep
    obtain ⟨ds, hds, hmem⟩ := hdep
    obtain ⟨u, hulen, hu⟩ := List.mem_iff_getElem.mp hds
    have hedge : edge g u v := by
      unfold edge children
      rw [if_neg (by omega), List.getD_eq_getElem g [] hulen, hu]
      exact hmem
    intro hnil
    have : u ∈ parentsList g v := mem_parentsList.mpr ⟨by omega, hedge⟩
    rw [hnil] at this
    cases this

theorem children_nodup {g : EGraph} (hnd : ∀ ds ∈ g, ds.Nodup) (v : Nat) :
    (children g v).Nodup := by
  unfold children
  by_cases hv : v = g.length
  · rw [if_pos hv]
    exact (List.nodup_range _).filter _
  · rw [if_neg hv]
    rcases Nat.lt_or_ge v g.length with hlt | hge
    · rw [List.getD_eq_getElem g [] hlt]
      exact hnd _ (List.getElem_mem hlt)
    · rw [List.getD_eq_default g [] hge]
      exact List.nodup_nil

/-! ## Acyclicity and well-foundedness

`Acyclic g` is the claim-level notion of an acyclic dependency configuration:
no node can reach itself through one or more dependency edges.  On the finite
node range this yields well-foundedness of `edge g`, which drives both the
completeness argument for the sort and the everything-is-reachable lemma. -/


theorem transGen_edgeFin_val {g : EGraph} {a b : Fin (g.length + 1)}
    (h : Relation.TransGen (edgeFin g) a b) : Relation.TransGen (edge g) a.val b.val := by
  induction h with
  | single h1 => exact Relation.TransGen.single h1
  | tail _ h1 ih => exact Relation.TransGen.tail ih h1

theorem edge_wf {g : EGraph} (hacyc : Acyclic g) : WellFounded (edge g) := by
  have htr : IsTrans (Fin (g.length + 1)) (Relation.TransGen (edgeFin g)) :=
    ⟨fun _ _ _ h1 h2 => Relation.TransGen.trans h1 h2⟩
  have hirr : IsIrrefl (Fin (g.length + 1)) (Relation.TransGen (edgeFin g)) :=
    ⟨fun a ha => hacyc a.val (transGen_edgeFin_val ha)⟩
  have hwfFinT : WellFounded (Relation.TransGen (edgeFin g)) :=
    Finite.wellFounded_of_trans_of_irrefl _
  have hwfFin : WellFounded (edgeFin g) :=
    Subrelation.wf (fun h => Relation.TransGen.single h) hwfFinT
  have haccFin : ∀ a : Fin (g.length + 1), Acc (edge g) a.val := by
    intro a
    induction a using hwfFin.induction with
    | _ x ih =>
        refine Acc.intro x.val (fun y hy => ?_)
        have hylt : y < g.length + 1 := edge_src_lt hy
        exact ih ⟨y, hylt⟩ hy
  refine WellFounded.intro (fun x => ?_)
  refine Acc.intro x (fun y hy => ?_)
  have hylt : y < g.length + 1 := edge_src_lt hy
  exact haccFin ⟨y, hylt⟩

theorem edge_irrefl {g : EGraph} (hacyc : Acyclic g) (v : Nat) : ¬ edge g v v :=
  fun h => hacyc v (Relation.TransGen.single h)

/-- In an acyclic built graph every node is reachable from the synthetic root:
chase dependents upward, which terminates by well-foundedness. -/
theorem all_reachable {g : EGraph} (hacyc : Acyclic g) :
    ∀ v, v < g.length + 1 → Relation.ReflTransGen (edge g) (rootId g) v := by
  have hwfe := edge_wf hacyc
  intro v
  induction v using hwfe.induction with
  | _ v ih =>
      intro hv
      by_cases hroot : v = g.length
      · subst hroot
        exact Relation.ReflTransGen.refl
      · have hvlt : v < g.length := by omega
        have hne := parentsList_ne_nil (g := g) hvlt
        obtain ⟨u, hu⟩ := List.exists_mem_of_ne_nil _ hne
        obtain ⟨hult, hedge⟩ := mem_parentsList.mp hu
        have hureach := ih u hedge (edge_src_lt hedge)
        exact Relation.ReflTransGen.tail hureach hedge

/-! ## Invariants of the sort loop -/


/-- One iteration of the sort loop preserves the invariant. -/
theorem sortInv_step {g : EGraph}
    (hwf : ∀ ds ∈ g, ∀ i ∈ ds, i < g.length)
    (hcnd : ∀ v, (children g v).Nodup) (hirr : ∀ v, ¬ edge g v v)
    {node : Nat} {rest sorted : List Nat}
    (inv : SortInv g (node :: rest) sorted) :
    SortInv g
      (((children g node).filter
          (fun c => (parentsList g c).all (fun p => decide (p ∈ node :: sorted.reverse)))).reverse
        ++ rest)
      (sorted ++ [node]) := by
  set pushes := (children g node).filter
      (fun c => (parentsList g c).all (fun p => decide (p ∈ node :: sorted.reverse))) with hpushes
  have hmemtrans : ∀ p, (p ∈ node :: sorted.reverse) ↔ p ∈ sorted ++ [node] := by
    intro p
    simp only [List.mem_cons, List.mem_reverse, List.mem_append, List.mem_singleton]
    tauto
  have hndparts := List.nodup_append.mp inv.hnd
  have hndsorted : sorted.Nodup := hndparts.1
  have hndact : (node :: rest).Nodup := hndparts.2.1
  have hdisj : sorted.Disjoint (node :: rest) := hndparts.2.2
  have hnodesorted : node ∉ sorted := fun h => hdisj h (List.mem_cons_self _ _)
  have hnoderest : node ∉ rest := (List.nodup_cons.mp hndact).1
  have hrestnd : rest.Nodup := (List.nodup_cons.mp hndact).2
  have hpushcond : ∀ c ∈ pushes, edge g node c ∧ ∀ p, edge g p c → p ∈ sorted ++ [node] := by
    intro c hc
    obtain ⟨hcc, hall⟩ := List.mem_filter.mp hc
    refine ⟨hcc, fun p hp => ?_⟩
    have hpmem : p ∈ parentsList g c := mem_parentsList.mpr ⟨edge_src_lt hp, hp⟩
    have := List.all_eq_true.mp hall p hpmem
    rw [decide_eq_true_eq] at this
    exact (hmemtrans p).mp this
  have hfresh : ∀ c ∈ pushes, c ∉ sorted ∧ c ≠ node ∧ c ∉ rest := by
    intro c hc
    have hedge : edge g node c := (hpushcond c hc).1
    refine ⟨?_, ?_, ?_⟩
    · intro hcs
      have hnmem : node ∈ sorted :=
        inv.hpar c (List.mem_append_left _ hcs) node hedge
      exact hnodesorted hnmem
    · intro hceq
      exact hirr node (hceq ▸ hedge)
    · intro hcr
      have hnmem : node ∈ sorted :=
        inv.hpar c (List.mem_append_right _ (List.mem_cons_of_mem _ hcr)) node hedge
      exact hnodesorted hnmem
  have hpushnd : pushes.Nodup := (hcnd node).filter _
  refine ⟨?_, ?_, ?_, ?_, ?_, ?_⟩
  · -- hnd
    rw [List.nodup_append]
    refine ⟨?_, ?_, ?_⟩
    · rw [List.nodup_append]
      exact ⟨hndsorted, List.nodup_singleton _,
        fun a ha hb => hnodesorted ((List.mem_singleton.mp hb) ▸ ha)⟩
    · rw [List.nodup_append]
      refine ⟨List.nodup_reverse.mpr hpushnd, hrestnd, fun a ha hb => ?_⟩
      exact (hfresh a (List.mem_reverse.mp ha)).2.2 hb
    · intro a ha hb
      rcases List.mem_append.mp ha with has | hasing
      · rcases List.mem_append.mp hb with hp | hr
        · exact (hfresh a (List.mem_reverse.mp hp)).1 has
        · exact hdisj has (List.mem_cons_of_mem _ hr)
      · have haeq : a = node := List.mem_singleton.mp hasing
        rcases List.mem_append.mp hb with hp | hr
        · exact (hfresh a (List.mem_reverse.mp hp)).2.1 haeq
        · exact hnoderest (haeq ▸ hr)
  · -- hrange
    intro v hv
    rcases List.mem_append.mp hv with hv1 | hv2
    · rcases List.mem_append.mp hv1 with hvs | hvn
      · exact inv.hrange v (List.mem_append_left _ hvs)
      · have : v = node := List.mem_singleton.mp hvn
        exact this ▸ inv.hrange node (List.mem_append_right _ (List.mem_cons_self _ _))
    · rcases List.mem_append.mp hv2 with hvp | hvr
      · have := children_sub hwf (hpushcond v (List.mem_reverse.mp hvp)).1
        omega
      · exact inv.hrange v (List.mem_append_right _ (List.mem_cons_of_mem _ hvr))
  · -- hpar
    intro c hc u hu
    rcases List.mem_append.mp hc with hc1 | hc2
    · rcases List.mem_append.mp hc1 with hcs | hcn
      · exact List.mem_append_left _ (inv.hpar c (List.mem_append_left _ hcs) u hu)
      · have : c = node := List.mem_singleton.mp hcn
        exact List.mem_append_left _
          (inv.hpar c (this ▸ List.mem_append_right _ (List.mem_cons_self _ _)) u hu)
    · rcases List.mem_append.mp hc2 with hcp | hcr
      · exact (hpushcond c (List.mem_reverse.mp hcp)).2 u hu
      · exact List.mem_append_left _
          (inv.hpar c (List.mem_append_right _ (List.mem_cons_of_mem _ hcr)) u hu)
  · -- hclosed
    intro c hclt hcne hall
    by_cases hn : node ∈ parentsList g c
    · have hedge : edge g node c := (mem_parentsList.mp hn).2
      have hcpush : c ∈ pushes := by
        rw [hpushes, List.mem_filter]
        refine ⟨hedge, List.all_eq_true.mpr ?_⟩
        intro p hp
        rw [decide_eq_true_eq, hmemtrans p]
        exact hall p hp
      exact Or.inr (List.mem_append_left _ (List.mem_reverse.mpr hcpush))
    · have hall2 : ∀ p ∈ parentsList g c, p ∈ sorted := by
        intro p hp
        rcases List.mem_append.mp (hall p hp) with hps | hpn
        · exact hps
        · exact absurd ((List.mem_singleton.mp hpn) ▸ hp) hn
      rcases inv.hclosed c hclt hcne hall2 with hcs | hca
      · exact Or.inl (List.mem_append_left _ hcs)
      · rcases List.mem_cons.mp hca with hceq | hcr
        · exact Or.inl (hceq ▸ List.mem_append_right _ (List.mem_cons_self _ _))
        · exact Or.inr (List.mem_append_right _ hcr)
  · -- hord
    rw [List.pairwise_append]
    refine ⟨inv.hord, List.pairwise_singleton _ _, ?_⟩
    intro a ha b hb
    have hbnode : b = node := List.mem_singleton.mp hb
    subst hbnode
    intro hedge
    exact hnodesorted (inv.hpar a (List.mem_append_left _ ha) b hedge)
  · -- hroot
    rcases inv.hroot with hr | hr
    · exact Or.inl (List.mem_append_left _ hr)
    · rcases List.mem_cons.mp hr with hre | hrr
      · exact Or.inl (hre ▸ List.mem_append_right _ (List.mem_cons_self _ _))
      · exact Or.inr (List.mem_append_right _ hrr)

/-- A duplicate-free list of node ids has at most `g.length + 1` elements. -/
theorem nodes_length_le {g : EGraph} {l : List Nat} (hnd : l.Nodup)
    (hsub : ∀ v ∈ l, v < g.length + 1) : l.length ≤ g.length + 1 := by
  have hsub2 : l ⊆ List.range (g.length + 1) :=
    fun v hv => List.mem_range.mpr (hsub v hv)
  have := (List.subperm_of_subset hnd hsub2).length_le
  simpa using this

/-- With enough fuel the sort loop runs to completion from any invariant
state, and the invariant holds of the final state (with an empty worklist). -/
theorem sortLoop_total {g : EGraph}
    (hwf : ∀ ds ∈ g, ∀ i ∈ ds, i < g.length)
    (hcnd : ∀ v, (children g v).Nodup) (hirr : ∀ v, ¬ edge g v v) :
    ∀ fuel active sorted, SortInv g active sorted →
      g.length + 2 ≤ fuel + sorted.length →
      ∃ sF, sortLoop g fuel active sorted.reverse sorted = some (sF.reverse, sF) ∧
        SortInv g [] sF := by
  intro fuel
  induction fuel with
  | zero =>
      intro active sorted inv hfuel
      cases active with
      | nil => exact ⟨sorted, rfl, inv⟩
      | cons node rest =>
          exfalso
          have hnd : sorted.Nodup :=
            ((List.sublist_append_left sorted (node :: rest)).nodup inv.hnd)
          have := nodes_length_le hnd
            (fun v hv => inv.hrange v (List.mem_append_left _ hv))
          omega
  | succ fuel ih =>
      intro active sorted inv hfuel
      cases active with
      | nil => exact ⟨sorted, rfl, inv⟩
      | cons node rest =>
          have step := sortInv_step hwf hcnd hirr inv
          obtain ⟨sF, hrun, hinvF⟩ := ih _ (sorted ++ [node]) step
            (by simp only [List.length_append, List.length_singleton]; omega)
          refine ⟨sF, ?_, hinvF⟩
          show sortLoop g (fuel + 1) (node :: rest) sorted.reverse sorted = _
          simp only [sortLoop]
          rw [show (sorted ++ [node]).reverse = node :: sorted.reverse by
            rw [List.reverse_append]; rfl] at hrun
          exact hrun

/-- When the loop has drained its worklist in an acyclic graph, every node is
in the produced order. -/
theorem sortInv_final_complete {g : EGraph} (hacyc : Acyclic g) {sF : List Nat}
    (inv : SortInv g [] sF) : ∀ v, v < g.length + 1 → v ∈ sF := by
  by_contra hcon
  push_neg at hcon
  obtain ⟨v0, hv0lt, hv0not⟩ := hcon
  have hS : Set.Nonempty {v : Nat | v < g.length + 1 ∧ v ∉ sF} := ⟨v0, hv0lt, hv0not⟩
  obtain ⟨m, ⟨hmlt, hmnot⟩, hmin⟩ := (edge_wf hacyc).has_min _ hS
  have hmroot : m ≠ g.length := by
    intro h
    rcases inv.hroot with hr | hr
    · exact hmnot (h ▸ hr)
    · cases hr
  have hmltn : m < g.length := by omega
  have hne := parentsList_ne_nil (g := g) hmltn
  have hall : ∀ p ∈ parentsList g m, p ∈ sF := by
    intro p hp
    obtain ⟨hplt, hpedge⟩ := mem_parentsList.mp hp
    by_contra hpnot
    exact hmin p ⟨hplt, hpnot⟩ hpedge
  rcases inv.hclosed m hmlt hne hall with hms | hma
  · exact hmnot hms
  · cases hma

/-- The completed order of an acyclic graph has exactly `g.length + 1`
entries. -/
theorem sortInv_final_length {g : EGraph} (hacyc : Acyclic g) {sF : List Nat}
    (inv : SortInv g [] sF) : sF.length = g.length + 1 := by
  have hnd : sF.Nodup := by
    have := inv.hnd
    simpa using this
  have h1 : sF.length ≤ g.length + 1 :=
    nodes_length_le hnd (fun v hv => inv.hrange v (by simpa using hv))
  have h2 : g.length + 1 ≤ sF.length := by
    have hsub : List.range (g.length + 1) ⊆ sF := by
      intro v hv
      exact sortInv_final_complete hacyc inv v (List.mem_range.mp hv)
    have := (List.subperm_of_subset (List.nodup_range _) hsub).length_le
    simpa using this
  omega

/-- Parents appear strictly earlier than their children in the completed
order. -/
theorem sortInv_index_lt {g : EGraph} (hirr : ∀ v, ¬ edge g v v) {sF : List Nat}
    (inv : SortInv g [] sF) {u v : Nat} (hedge : edge g u v) (hv : v ∈ sF) :
    u ∈ sF ∧ sF.indexOf u < sF.indexOf v := by
  have hu : u ∈ sF := inv.hpar v (by simpa using hv) u hedge
  refine ⟨hu, ?_⟩
  have hiu : sF.indexOf u < sF.length := List.indexOf_lt_length.mpr hu
  have hiv : sF.indexOf v < sF.length := List.indexOf_lt_length.mpr hv
  have hget := List.pairwise_iff_get.mp inv.hord
  rcases Nat.lt_trichotomy (sF.indexOf u) (sF.indexOf v) with h | h | h
  · exact h
  · exfalso
    have : u = v := by
      have h1 : sF.get ⟨sF.indexOf u, hiu⟩ = u := List.indexOf_get hiu
      have h2 : sF.get ⟨sF.indexOf v, hiv⟩ = v := List.indexOf_get hiv
      rw [← h1, ← h2]
      congr 1
      exact Fin.ext h
    exact hirr v (this ▸ hedge)
  · exfalso
    have := hget ⟨sF.indexOf v, hiv⟩ ⟨sF.indexOf u, hiu⟩ h
    rw [List.indexOf_get hiu, List.indexOf_get hiv] at this
    exact this hedge

/-- Transitive dependencies appear strictly earlier in the completed order. -/
theorem sortInv_index_lt_trans {g : EGraph} (hirr : ∀ v, ¬ edge g v v) {sF : List Nat}
    (inv : SortInv g [] sF) {u v : Nat} (h : Relation.TransGen (edge g) u v)
    (hv : v ∈ sF) : u ∈ sF ∧ sF.indexOf u < sF.indexOf v := by
  induction h with
  | single h1 => exact sortInv_index_lt hirr inv h1 hv
  | tail _ h1 ih =>
      obtain ⟨hb, hblt⟩ := sortInv_index_lt hirr inv h1 hv
      obtain ⟨hu, hult⟩ := ih hb
      exact ⟨hu, by omega⟩

/-! ## Invariants of the node-counting loop -/



theorem wsum_cons {g : EGraph} {visited : List Nat} {node : Nat}
    (hlt : node < g.length + 1) (hnot : node ∉ visited) :
    wsum g (node :: visited) + (1 + (children g node).length) = wsum g visited := by
  have hset : (Finset.range (g.length + 1)).filter (fun v => v ∉ node :: visited)
      = ((Finset.range (g.length + 1)).filter (fun v => v ∉ visited)).erase node := by
    ext a
    simp only [Finset.mem_filter, Finset.mem_erase, Finset.mem_range, List.mem_cons]
    constructor
    · rintro ⟨h1, h2⟩
      push_neg at h2
      exact ⟨h2.1, h1, h2.2⟩
    · rintro ⟨h1, h2, h3⟩
      refine ⟨h2, ?_⟩
      push_neg
      exact ⟨h1, h3⟩
  have hmem : node ∈ (Finset.range (g.length + 1)).filter (fun v => v ∉ visited) := by
    simp only [Finset.mem_filter, Finset.mem_range]
    exact ⟨hlt, hnot⟩
  rw [wsum, wsum, hset]
  exact Finset.sum_erase_add _ _ hmem

/-- With enough fuel the counting loop runs to completion from any invariant
state, and the invariant holds of the final state. -/
theorem countLoop_total {g : EGraph}
    (hwf : ∀ ds ∈ g, ∀ i ∈ ds, i < g.length) :
    ∀ fuel search visited count, CountInv g search visited count →
      search.length + wsum g visited < fuel →
      ∃ visF cF, countLoop g fuel search visited count = some (visF, cF) ∧
        CountInv g [] visF cF := by
  intro fuel
  induction fuel with
  | zero =>
      intro search visited count inv hfuel
      cases search with
      | nil => exact ⟨visited, count, rfl, inv⟩
      | cons node rest => omega
  | succ fuel ih =>
      intro search visited count inv hfuel
      cases search with
      | nil => exact ⟨visited, count, rfl, inv⟩
      | cons node rest =>
          by_cases hv : node ∈ visited
          · have inv2 : CountInv g rest visited count := by
              refine ⟨fun v hm => inv.hsr v (List.mem_cons_of_mem _ hm),
                inv.hvr, inv.hvnd, inv.hcnt, ?_, ?_⟩
              · intro w hw c hc
                rcases inv.hclos w hw c hc with h1 | h2
                · exact Or.inl h1
                · rcases List.mem_cons.mp h2 with he | hr
                  · exact Or.inl (he ▸ hv)
                  · exact Or.inr hr
              · rcases inv.hroot with h1 | h2
                · exact Or.inl h1
                · rcases List.mem_cons.mp h2 with he | hr
                  · exact Or.inl (he ▸ hv)
                  · exact Or.inr hr
            obtain ⟨visF, cF, hrun, hinvF⟩ := ih rest visited count inv2
              (by simp only [List.length_cons] at hfuel; omega)
            refine ⟨visF, cF, ?_, hinvF⟩
            show countLoop g (fuel + 1) (node :: rest) visited count = _
            simp only [countLoop, if_pos hv]
            exact hrun
          · have hnlt : node < g.length + 1 := inv.hsr node (List.mem_cons_self _ _)
            have inv2 : CountInv g ((children g node).reverse ++ rest)
                (node :: visited) (count + 1) := by
              refine ⟨?_, ?_, ?_, ?_, ?_, ?_⟩
              · intro v hm
                rcases List.mem_append.mp hm with hc | hr
                · have := children_sub hwf (List.mem_reverse.mp hc)
                  omega
                · exact inv.hsr v (List.mem_cons_of_mem _ hr)
              · intro v hm
                rcases List.mem_cons.mp hm with he | hr
                · exact he ▸ hnlt
                · exact inv.hvr v hr
              · exact List.nodup_cons.mpr ⟨hv, inv.hvnd⟩
              · simp only [List.length_cons, inv.hcnt]
              · intro w hw c hc
                rcases List.mem_cons.mp hw with he | hr
                · subst he
                  exact Or.inr (List.mem_append_left _ (List.mem_reverse.mpr hc))
                · rcases inv.hclos w hr c hc with h1 | h2
                  · exact Or.inl (List.mem_cons_of_mem _ h1)
                  · rcases List.mem_cons.mp h2 with he2 | hr2
                    · exact Or.inl (he2 ▸ List.mem_cons_self _ _)
                    · exact Or.inr (List.mem_append_right _ hr2)
              · rcases inv.hroot with h1 | h2
                · exact Or.inl (List.mem_cons_of_mem _ h1)
                · rcases List.mem_cons.mp h2 with he | hr
                  · exact Or.inl (he ▸ List.mem_cons_self _ _)
                  · exact Or.inr (List.mem_append_right _ hr)
            have hw := wsum_cons (g := g) hnlt hv
            obtain ⟨visF, cF, hrun, hinvF⟩ := ih _ (node :: visited) (count + 1) inv2
              (by
                simp only [List.length_append, List.length_reverse, List.length_cons] at hfuel ⊢
                omega)
            refine ⟨visF, cF, ?_, hinvF⟩
            show countLoop g (fuel + 1) (node :: rest) visited count = _
            simp only [countLoop, if_neg hv]
            exact hrun

/-- After the counting loop drains its stack on an acyclic graph, it has
counted every node exactly once. -/
theorem countInv_final {g : EGraph} (hacyc : Acyclic g) {visF : List Nat} {cF : Nat}
    (inv : CountInv g [] visF cF) : cF = g.length + 1 := by
  have hclos : ∀ v ∈ visF, ∀ c ∈ children g v, c ∈ visF := by
    intro v hv c hc
    rcases inv.hclos v hv c hc with h1 | h2
    · exact h1
    · cases h2
  have hrootmem : g.length ∈ visF := by
    rcases inv.hroot with h1 | h2
    · exact h1
    · cases h2
  have hreach : ∀ v, Relation.ReflTransGen (edge g) (rootId g) v → v ∈ visF := by
    intro v h
    induction h with
    | refl => exact hrootmem
    | tail _ hstep ih => exact hclos _ ih _ hstep
  have hall : ∀ v, v < g.length + 1 → v ∈ visF := by
    intro v hv
    exact hreach v (all_reachable hacyc v hv)
  have h1 : visF.length ≤ g.length + 1 := nodes_length_le inv.hvnd inv.hvr
  have h2 : g.length + 1 ≤ visF.length := by
    have hsub : List.range (g.length + 1) ⊆ visF := by
      intro v hv
      exact hall v (List.mem_range.mp hv)
    have := (List.subperm_of_subset (List.nodup_range _) hsub).length_le
    simpa using this
  rw [inv.hcnt]
  omega

/-! ## Top-level scheduler facts -/


theorem egFuel_ge (g : EGraph) : g.length + 3 ≤ egFuel g := by
  have hle : (Finset.range (g.length + 1)).sum (fun _ => 1)
      ≤ (Finset.range (g.length + 1)).sum (fun v => 1 + (children g v).length) :=
    Finset.sum_le_sum (fun i _ => by omega)
  rw [Finset.sum_const, Finset.card_range, smul_eq_mul, Nat.mul_one] at hle
  unfold egFuel
  omega

theorem wsum_nil (g : EGraph) :
    wsum g [] = (Finset.range (g.length + 1)).sum (fun v => 1 + (children g v).length) := by
  unfold wsum
  rw [Finset.filter_true_of_mem]
  intro x _
  exact List.not_mem_nil x

/-- Under acyclicity, `_get_num_nodes` counts every node of the built graph. -/
theorem get_num_nodes_eq {g : EGraph}
    (hwf : ∀ ds ∈ g, ∀ i ∈ ds, i < g.length) (hacyc : Acyclic g) :
    get_num_nodes g (egFuel g) = some (g.length + 1) := by
  have inv0 : CountInv g [rootId g] [] 0 := by
    refine ⟨?_, ?_, List.nodup_nil, rfl, ?_, Or.inr (List.mem_singleton.mpr rfl)⟩
    · intro v hv
      rw [List.mem_singleton.mp hv]
      simp [rootId]
    · intro v hv
      cases hv
    · intro v hv
      cases hv
  obtain ⟨visF, cF, hrun, hinvF⟩ := countLoop_total hwf (egFuel g) [rootId g] [] 0 inv0
    (by
      have := egFuel_ge g
      rw [List.length_singleton, wsum_nil]
      unfold egFuel
      omega)
  unfold get_num_nodes
  rw [hrun]
  simp only [Option.map]
  rw [countInv_final hacyc hinvF]

/-- The initial state of the sort loop satisfies the invariant. -/
theorem sortInv_init {g : EGraph}
    (hwf : ∀ ds ∈ g, ∀ i ∈ ds, i < g.length) : SortInv g [rootId g] [] := by
  refine ⟨?_, ?_, ?_, ?_, List.Pairwise.nil, Or.inr (List.mem_singleton.mpr rfl)⟩
  · simp [rootId]
  · intro v hv
    simp only [List.nil_append] at hv
    rw [List.mem_singleton.mp hv]
    simp [rootId]
  · intro c hc u hu
    simp only [List.nil_append] at hc
    rw [List.mem_singleton.mp hc] at hu
    exact absurd hu (not_edge_root hwf)
  · intro c _ hcne hall
    obtain ⟨p, hp⟩ := List.exists_mem_of_ne_nil _ hcne
    exact absurd (hall p hp) (List.not_mem_nil p)

/-- Under the hypotheses of the main correctness claim,
`get_topological_sort` succeeds and its result is a complete, duplicate-free,
dependency-respecting order (root first). -/
theorem get_topological_sort_ok {g : EGraph}
    (hwf : ∀ ds ∈ g, ∀ i ∈ ds, i < g.length)
    (hcnd : ∀ v, (children g v).Nodup) (hacyc : Acyclic g) :
    ∃ sF, get_topological_sort g (egFuel g) = some (Except.ok sF) ∧
      sF.Nodup ∧ sF.length = g.length + 1 ∧
      (∀ v, v < g.length + 1 → v ∈ sF) ∧
      (∀ v ∈ sF, v < g.length + 1) ∧
      (∀ u v, Relation.TransGen (edge g) u v →
        u ∈ sF ∧ v ∈ sF ∧ sF.indexOf u < sF.indexOf v) := by
  have hirr : ∀ v, ¬ edge g v v := edge_irrefl hacyc
  obtain ⟨sF, hrun, hinvF⟩ := sortLoop_total hwf hcnd hirr (egFuel g) [rootId g] []
    (sortInv_init hwf)
    (by have := egFuel_ge g; omega)
  have hlen := sortInv_final_length hacyc hinvF
  have hcomplete := sortInv_final_complete hacyc hinvF
  have hnum := get_num_nodes_eq hwf hacyc
  rw [List.reverse_nil] at hrun
  refine ⟨sF, ?_, ?_, hlen, hcomplete, ?_, ?_⟩
  · rw [get_topological_sort, hnum, hrun]
    simp [hlen]
  · have := hinvF.hnd
    simpa using this
  · intro v hv
    exact hinvF.hrange v (by simpa using hv)
  · intro u v htg
    have hvlt : v < g.length + 1 := by
      cases htg with
      | single h1 =>
          have := children_sub hwf h1
          omega
      | tail _ h1 =>
          have := children_sub hwf h1
          omega
    have hvmem : v ∈ sF := hcomplete v hvlt
    obtain ⟨humem, hidx⟩ := sortInv_index_lt_trans hirr hinvF htg hvmem
    exact ⟨humem, hvmem, hidx⟩

/-- Position of an element in the reversed duplicate-free list. -/
theorem indexOf_reverse {l : List Nat} (hnd : l.Nodup) {a : Nat} (ha : a ∈ l) :
    l.reverse.indexOf a = l.length - 1 - l.indexOf a := by
  have hia : l.indexOf a < l.length := List.indexOf_lt_length.mpr ha
  have hjlt : l.length - 1 - l.indexOf a < l.reverse.length := by
    rw [List.length_reverse]
    omega
  have hget : l.reverse.get ⟨l.length - 1 - l.indexOf a, hjlt⟩ = a := by
    rw [List.get_reverse' l ⟨l.length - 1 - l.indexOf a, hjlt⟩ (by simp; omega)]
    have : l.length - 1 - (l.length - 1 - l.indexOf a) = l.indexOf a := by omega
    simp only [this]
    exact List.indexOf_get hia
  have hrev : a ∈ l.reverse := List.mem_reverse.mpr ha
  have hir : l.reverse.indexOf a < l.reverse.length := List.indexOf_lt_length.mpr hrev
  have hndr : l.reverse.Nodup := List.nodup_reverse.mpr hnd
  have := hndr.get_inj_iff (i := ⟨l.reverse.indexOf a, hir⟩)
    (j := ⟨l.length - 1 - l.indexOf a, hjlt⟩)
  have heq := this.mp (by rw [List.indexOf_get hir, hget])
  exact congrArg Fin.val heq

/-- A rank function that strictly decreases along every dependency edge
certifies acyclicity. -/
theorem acyclic_of_rank {g : EGraph} (f : Nat → Nat)
    (hf : ∀ u v, edge g u v → f v < f u) : Acyclic g := by
  intro v htg
  have hmono : ∀ a b, Relation.TransGen (edge g) a b → f b < f a := by
    intro a b h
    induction h with
    | single h1 => exact hf _ _ h1
    | tail _ h1 ih => exact lt_trans (hf _ _ h1) ih
  exact absurd (hmono v v htg) (lt_irrefl _)


/-! ## Claim theorems -/

/-- C1: for every acyclic dependency configuration whose actions each list
pairwise distinct dependency keys and whose build succeeds (all keys resolve),
the ordering pass of the scheduler followed by reversal yields an execution
order in which every node — every action and the synthetic root — occurs
exactly once, and every node occurs strictly after every node reachable from
it through dependency edges, transitively. -/
theorem C1_execution_order {acts : List PAct} {g : EGraph}
    (hbuild : buildGraph acts = Except.ok g)
    (hdeps : ∀ a ∈ acts, a.deps.Nodup)
    (hacyc : Acyclic g) :
    ∃ sorted, get_topological_sort g (egFuel g) = some (Except.ok sorted) ∧
      (∀ v, v < g.length + 1 → sorted.reverse.count v = 1) ∧
      (∀ v ∈ sorted.reverse, v < g.length + 1) ∧
      (∀ u v, Relation.TransGen (edge g) u v →
        sorted.reverse.indexOf v < sorted.reverse.indexOf u) := by
  have hwf := buildGraph_wf hbuild
  have hcnd := children_nodup (buildGraph_nodup hbuild hdeps)
  obtain ⟨sF, hres, hnd, hlen, hcomplete, hrange, hord⟩ :=
    get_topological_sort_ok hwf hcnd hacyc
  refine ⟨sF, hres, ?_, ?_, ?_⟩
  · intro v hv
    have hmem : v ∈ sF := hcomplete v hv
    have h1 : sF.count v = 1 := List.count_eq_one_of_mem hnd hmem
    rw [(List.reverse_perm sF).count_eq]
    exact h1
  · intro v hv
    exact hrange v (List.mem_reverse.mp hv)
  · intro u v htg
    obtain ⟨humem, hvmem, hidx⟩ := hord u v htg
    have hiu : sF.indexOf u < sF.length := List.indexOf_lt_length.mpr humem
    have hiv : sF.indexOf v < sF.length := List.indexOf_lt_length.mpr hvmem
    rw [indexOf_reverse hnd humem, indexOf_reverse hnd hvmem]
    omega

/-- Witness for C1 at the three-action chain base ← mid ← top (scenario A of
the specification). -/
theorem C1_execution_order_witness :
    (buildGraph [⟨"base", []⟩, ⟨"mid", ["base"]⟩, ⟨"top", ["mid"]⟩]
        = Except.ok [[], [0], [1]]) ∧
    (∀ a ∈ [(⟨"base", []⟩ : PAct), ⟨"mid", ["base"]⟩, ⟨"top", ["mid"]⟩], a.deps.Nodup) ∧
    Acyclic [[], [0], [1]] ∧
    (∃ sorted, get_topological_sort [[], [0], [1]] (egFuel [[], [0], [1]])
        = some (Except.ok sorted) ∧
      (∀ v, v < 4 → sorted.reverse.count v = 1) ∧
      (∀ v ∈ sorted.reverse, v < 4) ∧
      (∀ u v, Relation.TransGen (edge [[], [0], [1]]) u v →
        sorted.reverse.indexOf v < sorted.reverse.indexOf u)) := by
  have hacyc : Acyclic [[], [0], [1]] := by
    refine acyclic_of_rank (fun n => n) ?_
    intro u v h
    have hu : u < 4 := edge_src_lt h
    have hv : v < 3 := children_sub (by decide) h
    interval_cases u <;> interval_cases v <;> revert h <;> decide
  refine ⟨by decide, by decide, hacyc, ?_⟩
  have := @C1_execution_order [⟨"base", []⟩, ⟨"mid", ["base"]⟩, ⟨"top", ["mid"]⟩]
    [[], [0], [1]] (by decide) (by decide) hacyc
  simpa using this

/-- C2: the claim fails on the code.  For the two-action mutual cycle
(scenario B of the specification) the built cycle is unreachable from the
synthetic root, both traversals see only the root, and `get_topological_sort`
returns an order without raising anything; no CircularDependency error occurs.
For a cycle reachable from the root the shorter-order branch is taken, but the
swapped `log_and_raise` arguments make a TypeError escape rather than
CircularDependencyException. -/
theorem C2_cycle_detection_bug :
    (buildGraph [⟨"A", ["B"]⟩, ⟨"B", ["A"]⟩] = Except.ok [[1], [0]]) ∧
    (¬ Acyclic [[1], [0]]) ∧
    get_topological_sort [[1], [0]] 8 = some (Except.ok [2]) ∧
    (buildGraph [⟨"C", ["A"]⟩, ⟨"A", ["B"]⟩, ⟨"B", ["A"]⟩] = Except.ok [[1], [2], [1]]) ∧
    get_topological_sort [[1], [2], [1]] 8 = some (Except.error
      (PyExc.typeError "can only concatenate str (not type) to str")) := by
  refine ⟨by decide, ?_, by decide, by decide, by decide⟩
  intro h
  have h01 : edge [[1], [0]] 0 1 := by decide
  have h10 : edge [[1], [0]] 1 0 := by decide
  exact h 0 (Relation.TransGen.tail (Relation.TransGen.single h01) h10)

/-- C3: the claim fails on the code.  A dependency key that resolves to no
action does abort the build before anything executes, but the except-handler
in `_build_dependency_graph` passes the KeyError class where `log_and_raise`
expects the message, so the exception that escapes is a TypeError whose text
does not name the missing key — not a BadDependencyReference/KeyError naming
"ghost" (scenario C of the specification). -/
theorem C3_bad_dependency_reference_bug :
    buildGraph [⟨"X", ["ghost"]⟩] = Except.error
      (PyExc.typeError "can only concatenate str (not type) to str") := by decide

/-- C4: the claim fails on the code.  `ExecutionGraph.execute` takes no
execution context and calls `node.value.execute()` with no argument, so no
shared context is ever passed; on the scenario-A graph the very first call of
the reversed order (a NullAction here, and the same for any FileSync) raises
TypeError, aborting the run.  The iteration order and fail-fast propagation
themselves are as described: the sort is root-first [3, 2, 1, 0] and the first
exception aborts the sequence. -/
theorem C4_execute_never_passes_context :
    (buildGraph [⟨"base", []⟩, ⟨"mid", ["base"]⟩, ⟨"top", ["mid"]⟩]
        = Except.ok [[], [0], [1]]) ∧
    get_topological_sort [[], [0], [1]] 12 = some (Except.ok [3, 2, 1, 0]) ∧
    graphExecute [[], [0], [1]] (fun _ => ActVal.nullAction) (fun _ => 0) (fun _ => 0) 12
      = some (Except.error (PyExc.typeError
          "execute() missing 1 required positional argument: exec_context")) ∧
    graphExecute [[], [0], [1]]
      (fun _ => ActVal.fileSyncVal ⟨"k", ⟨"s"⟩, "d", false⟩) (fun _ => 0) (fun _ => 0) 12
      = some (Except.error (PyExc.typeError
          "execute() missing 1 required positional argument: exec_context")) := by decide

/-- C10: the impossible-state branch of `get_topological_sort` is reachable.
The build accepts the acyclic configuration in which action A lists the
dependency key B twice; the duplicated edge makes the loop push and append
node 1 twice, so the order [2, 0, 1, 1] has 4 entries against a reachable
count of 3 and the length-exceeds-count branch is taken instead of returning
an order (the branch itself then raises TypeError because of the swapped
log_and_raise arguments). -/
theorem C10_impossible_state_reachable :
    (buildGraph [⟨"A", ["B", "B"]⟩, ⟨"B", []⟩] = Except.ok [[1, 1], []]) ∧
    Acyclic [[1, 1], []] ∧
    sortLoop [[1, 1], []] 8 [2] [] [] = some ([1, 1, 0, 2], [2, 0, 1, 1]) ∧
    get_num_nodes [[1, 1], []] 8 = some 3 ∧
    ([2, 0, 1, 1] : List Nat).length > 3 ∧
    get_topological_sort [[1, 1], []] 8 = some (Except.error
      (PyExc.typeError "can only concatenate str (not type) to str")) := by
  have hacyc : Acyclic [[1, 1], []] := by
    refine acyclic_of_rank (fun n => [1, 0, 2].getD n 0) ?_
    intro u v h
    have hu : u < 3 := edge_src_lt h
    have hv : v < 2 := children_sub (by decide) h
    interval_cases u <;> interval_cases v <;> revert h <;> decide
  exact ⟨by decide, hacyc, by decide, by decide, by decide, by decide⟩

/-- C9: the claim fails on the code.  Both failure branches of
`Installation.execute` reference error-key constants that errors.py does not
define, so evaluating the arguments of `log_and_raise` raises AttributeError —
not an ActionFailureException: first conjunct, the check-only branch (check
always failing, no install command, install never spawned); second conjunct,
the failed-install branch.  The non-failure parts of the claim do hold: a
succeeding initial check never spawns the install command, and a zero-exit
install whose re-run check still fails is a logged soft failure returning
success. -/
theorem C9_installation_missing_error_constants :
    (Installation.execute ⟨"dep", "check cmd", none⟩ (fun _ => 1) (fun _ => 0)
      = (Except.error (PyExc.attributeError "AC_CHECK_ONLY_INSTALLATION_NOT_INSTALLED"), 0)) ∧
    (Installation.execute ⟨"dep", "check cmd", some "install cmd"⟩ (fun _ => 1) (fun _ => 1)
      = (Except.error (PyExc.attributeError "AC_FAILED_TO_INSTALL"), 1)) ∧
    (Installation.execute ⟨"dep", "check cmd", some "install cmd"⟩ (fun _ => 0) (fun _ => 1)
      = (Except.ok (), 0)) ∧
    (Installation.execute ⟨"dep", "check cmd", some "install cmd"⟩ (fun _ => 1) (fun _ => 0)
      = (Except.ok (), 1)) ∧
    (errorsModule.lookup "AC_FAILED_TO_INSTALL" = none) ∧
    (errorsModule.lookup "AC_CHECK_ONLY_INSTALLATION_NOT_INSTALLED" = none) := by decide

/-- The value of `compare_modified_date` when both modified dates are
obtainable: the prompt is surfaced exactly when the source is strictly older
than the local file. -/
theorem compare_modified_date_eq {fs : FileSystem} {src : LocalFileLocation}
    {path : String} {prompt : ModifiedDateDecisionEnum} {fsrc floc : FileRec}
    (hs : fsGet fs src.path = some fsrc) (hl : fsGet fs path = some floc) :
    compare_modified_date fs src path prompt
      = Except.ok (if fsrc.mtime < floc.mtime then some prompt else none) := by
  unfold compare_modified_date LocalFileLocation.get_modified_date get_file_modified_date
  rw [hs, hl]
  show (if fsrc.mtime < floc.mtime
        then (pure (some prompt) : Except PyExc (Option ModifiedDateDecisionEnum))
        else pure none)
      = Except.ok (if fsrc.mtime < floc.mtime then some prompt else none)
  by_cases h : fsrc.mtime < floc.mtime
  · rw [if_pos h, if_pos h]
    rfl
  · rw [if_neg h, if_neg h]
    rfl

/-- C5 counterexample: the claim as stated is false on the code.  Here the
source (mtime 10) is strictly newer than the local file (mtime 5), so the
claim demands a surfaced decision request; `compare_modified_date` returns
none instead (its guard prompts when the LOCAL file is newer — the opposite
direction, consistent with the prompt text in the source). -/
theorem C5_counterexample_source_newer :
    ((10 : Int) > 5) ∧
    compare_modified_date [("s", ⟨"sc", 10⟩), ("d", ⟨"dc", 5⟩)] ⟨"s"⟩ "d"
        ModifiedDateDecisionEnum.proceed_once = Except.ok none ∧
    ¬ (compare_modified_date [("s", ⟨"sc", 10⟩), ("d", ⟨"dc", 5⟩)] ⟨"s"⟩ "d"
        ModifiedDateDecisionEnum.proceed_once
       = Except.ok (some ModifiedDateDecisionEnum.proceed_once)) := by decide

/-- C5 amended: for every FileLocation and local path where both modified
dates are obtainable, `compare_modified_date` surfaces the interactive
decision request if and only if the LOCAL file's modified date is strictly
newer than the source's (i.e. the source is strictly older), and returns none
otherwise. -/
theorem C5_compare_modified_date_amended {fs : FileSystem} {src : LocalFileLocation}
    {path : String} {prompt : ModifiedDateDecisionEnum} {fsrc floc : FileRec}
    (hs : fsGet fs src.path = some fsrc) (hl : fsGet fs path = some floc) :
    compare_modified_date fs src path prompt
      = Except.ok (if fsrc.mtime < floc.mtime then some prompt else none) :=
  compare_modified_date_eq hs hl

/-- Witness for the amended C5 at a local file strictly newer than the
source: the decision request is surfaced with the collaborator's answer. -/
theorem C5_compare_modified_date_amended_witness :
    (fsGet [("s", ⟨"sc", 5⟩), ("d", ⟨"dc", 10⟩)] "s" = some ⟨"sc", 5⟩) ∧
    (fsGet [("s", ⟨"sc", 5⟩), ("d", ⟨"dc", 10⟩)] "d" = some ⟨"dc", 10⟩) ∧
    compare_modified_date [("s", ⟨"sc", 5⟩), ("d", ⟨"dc", 10⟩)] ⟨"s"⟩ "d"
        ModifiedDateDecisionEnum.proceed_once
      = Except.ok (some ModifiedDateDecisionEnum.proceed_once) := by
  refine ⟨by decide, by decide, ?_⟩
  rw [@C5_compare_modified_date_amended [("s", ⟨"sc", 5⟩), ("d", ⟨"dc", 10⟩)] ⟨"s"⟩ "d"
    ModifiedDateDecisionEnum.proceed_once ⟨"sc", 5⟩ ⟨"dc", 10⟩ (by decide) (by decide)]
  decide

/-- C6: the claim fails on the code.  `exec_context.skip_modified_date_warning`
is assigned by the ignore-in-future branch but is never read anywhere, so
later FileSync executions with an existing newer destination and overwrite
still invoke `compare_modified_date`.  First conjunct: an ignore-in-future
decision sets the flag and copies.  Second conjunct: the next FileSync of the
same run, carrying that context, still surfaces the prompt — answering stop
aborts the run, which could not happen had the prompt been bypassed. -/
theorem C6_ignore_flag_never_consulted :
    (FileSync.execute ⟨"k1", ⟨"s1"⟩, "d1", true⟩
        [("s1", ⟨"a", 5⟩), ("d1", ⟨"b", 10⟩), ("s2", ⟨"c", 5⟩), ("d2", ⟨"e", 10⟩)]
        ModifiedDateDecisionEnum.ignore_in_future 99 ⟨none, none⟩
      = Except.ok ([("d1", ⟨"a", 99⟩), ("s1", ⟨"a", 5⟩), ("s2", ⟨"c", 5⟩), ("d2", ⟨"e", 10⟩)],
          ⟨none, some true⟩)) ∧
    (FileSync.execute ⟨"k2", ⟨"s2"⟩, "d2", true⟩
        [("d1", ⟨"a", 99⟩), ("s1", ⟨"a", 5⟩), ("s2", ⟨"c", 5⟩), ("d2", ⟨"e", 10⟩)]
        ModifiedDateDecisionEnum.stop_execution 99 ⟨none, some true⟩
      = Except.error PyExc.userStoppedExecutionException) := by decide

/-- C7: with overwrite = false, a source that resolves, and an existing file
at the destination, `FileSync.execute` raises ActionFailureException — for
every file system, hence every source content — and no copy is performed (the
failure aborts before `shutil.copy`; no updated file system is produced). -/
theorem C7_overwrite_false_fails {a : FileSync} {fs : FileSystem}
    {prompt : ModifiedDateDecisionEnum} {now : Int} {ctx : ExecutionContext}
    {fsrc fdst : FileRec}
    (how : a.overwrite = false)
    (hsrc : fsGet fs a.file_source.path = some fsrc)
    (hdst : fsGet fs a.dest_path = some fdst) :
    a.execute fs prompt now ctx = Except.error PyExc.actionFailureException := by
  unfold FileSync.execute LocalFileLocation.get_file_path
  rw [hsrc, hdst]
  simp only [how, Bool.not_false, if_true]
  rfl

/-- Witness for C7: two different source contents, same failure, destination
untouched. -/
theorem C7_overwrite_false_fails_witness :
    ((⟨"k", ⟨"s"⟩, "d", false⟩ : FileSync).overwrite = false) ∧
    (fsGet [("s", ⟨"content one", 5⟩), ("d", ⟨"dst", 1⟩)] "s" = some ⟨"content one", 5⟩) ∧
    (fsGet [("s", ⟨"content one", 5⟩), ("d", ⟨"dst", 1⟩)] "d" = some ⟨"dst", 1⟩) ∧
    FileSync.execute ⟨"k", ⟨"s"⟩, "d", false⟩ [("s", ⟨"content one", 5⟩), ("d", ⟨"dst", 1⟩)]
        ModifiedDateDecisionEnum.proceed_once 99 ⟨none, none⟩
      = Except.error PyExc.actionFailureException ∧
    FileSync.execute ⟨"k", ⟨"s"⟩, "d", false⟩ [("s", ⟨"content two", 7⟩), ("d", ⟨"dst", 1⟩)]
        ModifiedDateDecisionEnum.proceed_once 99 ⟨none, none⟩
      = Except.error PyExc.actionFailureException := by
  refine ⟨by decide, by decide, by decide, ?_, ?_⟩
  · exact @C7_overwrite_false_fails ⟨"k", ⟨"s"⟩, "d", false⟩
      [("s", ⟨"content one", 5⟩), ("d", ⟨"dst", 1⟩)] ModifiedDateDecisionEnum.proceed_once
      99 ⟨none, none⟩ ⟨"content one", 5⟩ ⟨"dst", 1⟩ rfl (by decide) (by decide)
  · exact @C7_overwrite_false_fails ⟨"k", ⟨"s"⟩, "d", false⟩
      [("s", ⟨"content two", 7⟩), ("d", ⟨"dst", 1⟩)] ModifiedDateDecisionEnum.proceed_once
      99 ⟨none, none⟩ ⟨"content two", 7⟩ ⟨"dst", 1⟩ rfl (by decide) (by decide)

/-- C8: with overwrite = true, an existing destination strictly newer than
the source, and a skip_this_action decision, `FileSync.execute` returns
success and leaves the file system — in particular the destination file —
and the context unchanged. -/
theorem C8_skip_decision_no_copy {a : FileSync} {fs : FileSystem}
    {now : Int} {ctx : ExecutionContext} {fsrc fdst : FileRec}
    (how : a.overwrite = true)
    (hsrc : fsGet fs a.file_source.path = some fsrc)
    (hdst : fsGet fs a.dest_path = some fdst)
    (hnewer : fsrc.mtime < fdst.mtime) :
    a.execute fs ModifiedDateDecisionEnum.skip_this_action now ctx
      = Except.ok (fs, ctx) := by
  unfold FileSync.execute FileSync.handle_modified_date LocalFileLocation.get_file_path
  rw [hsrc, hdst, compare_modified_date_eq hsrc hdst, if_pos hnewer]
  simp only [how, Bool.not_true, if_false]
  rfl

/-- Witness for C8: destination newer than the source and a skip decision:
success, file system and context untouched. -/
theorem C8_skip_decision_no_copy_witness :
    ((⟨"k", ⟨"s"⟩, "d", true⟩ : FileSync).overwrite = true) ∧
    (fsGet [("s", ⟨"sc", 5⟩), ("d", ⟨"dc", 10⟩)] "s" = some ⟨"sc", 5⟩) ∧
    (fsGet [("s", ⟨"sc", 5⟩), ("d", ⟨"dc", 10⟩)] "d" = some ⟨"dc", 10⟩) ∧
    ((5 : Int) < 10) ∧
    FileSync.execute ⟨"k", ⟨"s"⟩, "d", true⟩ [("s", ⟨"sc", 5⟩), ("d", ⟨"dc", 10⟩)]
        ModifiedDateDecisionEnum.skip_this_action 99 ⟨none, none⟩
      = Except.ok ([("s", ⟨"sc", 5⟩), ("d", ⟨"dc", 10⟩)], ⟨none, none⟩) :=
  ⟨rfl, by decide, by decide, by decide,
    @C8_skip_decision_no_copy ⟨"k", ⟨"s"⟩, "d", true⟩ [("s", ⟨"sc", 5⟩), ("d", ⟨"dc", 10⟩)]
      99 ⟨none, none⟩ ⟨"sc", 5⟩ ⟨"dc", 10⟩ rfl (by decide) (by decide) (by decide)⟩

end Pyrsonalizer
